import Mathlib

/-!
Shallow embedding of the ratpack routing and dispatch engine
(`src/path.rs`, `src/handler.rs`, `src/router.rs`, `src/app.rs`, `src/lib.rs`).

Rust `String` values are modelled as `List Char`; UTF-8 byte-wise string
comparison coincides with code-point lexicographic comparison, which is what
`strCmp` implements.  Fallible Rust code returns `Except`; the one place the
Rust source performs a panicking slice index (`parts[i]` in `Path::extract`)
is modelled by the `Exec` wrapper whose `indexOutOfBounds` constructor stands
for that panic, so panic-freedom is a provable statement.
-/

namespace Ratpack

/-- Rust `str::split("/")`: splits on every `'/'`; the empty string yields one
empty segment, and a separator at either end yields an empty segment there. -/
def splitOnSlash : List Char → List (List Char)
  | [] => [[]]
  | c :: rest =>
    if c = '/' then [] :: splitOnSlash rest
    else
      match splitOnSlash rest with
      | [] => [[c]]
      | s :: ss => (c :: s) :: ss

/-- Rust `str::trim_end_matches("/")`: removes every trailing `'/'`. -/
def trimEndSlashes (s : List Char) : List Char :=
  (s.reverse.dropWhile (fun c => c = '/')).reverse

/-- Joining segments with `'/'`, as Rust's `Vec::join("/")`. -/
def joinSlash : List (List Char) → List Char
  | [] => []
  | [x] => x
  | x :: rest => x ++ '/' :: joinSlash rest

/-- Rust `Ord for str`: lexicographic comparison (byte-wise on UTF-8, which
equals code-point order). -/
def strCmp : List Char → List Char → Ordering
  | [], [] => .eq
  | [], _ :: _ => .lt
  | _ :: _, [] => .gt
  | a :: as', b :: bs' =>
    if a.toNat < b.toNat then .lt
    else if b.toNat < a.toNat then .gt
    else strCmp as' bs'

/-- `RoutePart` from `src/path.rs`. -/
inductive RoutePart where
  | pathComponent (s : List Char)
  | param (s : List Char)
  | leader
deriving DecidableEq

/-- `Path` from `src/path.rs`: a newtype over `Vec<RoutePart>`. -/
structure Path where
  parts : List RoutePart
deriving DecidableEq

/-- `Default for Path`: `vec![RoutePart::Leader]`. -/
def Path.defaultPath : Path := ⟨[RoutePart.leader]⟩

/-- The `for arg in args` loop body of `Path::new`: a `:`-prefixed segment
pushes a `Param` (its name stripped of every leading `':'`, as
`trim_start_matches(":")` does), an empty segment is skipped, anything else
pushes a `PathComponent`. -/
def Path.newLoop : List RoutePart → List (List Char) → List RoutePart
  | parts, [] => parts
  | parts, arg :: rest =>
    if arg.head? = some ':' then
      Path.newLoop (parts ++ [RoutePart.param (arg.dropWhile (fun c => c = ':'))]) rest
    else if arg = [] then
      Path.newLoop parts rest
    else
      Path.newLoop (parts ++ [RoutePart.pathComponent arg]) rest

/-- `Path::new`: trim trailing slashes; with no `'/'` left return the default
path `[Leader]`; otherwise fold the split segments onto the default path. -/
def Path.new (path : List Char) : Path :=
  let path := trimEndSlashes path
  if ¬ '/' ∈ path then Path.defaultPath
  else ⟨Path.newLoop Path.defaultPath.parts (splitOnSlash path)⟩

/-- The positional walk of `PartialEq for Path` (`src/path.rs`): iterate the
two part lists in lock-step (the caller has already checked equal lengths),
dispatching on the left (`self`) part: a `PathComponent` requires structural
equality with the right part, a `Param` accepts anything, and a `Leader` is
accepted only if no `Leader` of `self` was seen before. -/
def pathEqLoop : List RoutePart → List RoutePart → Bool → Bool
  | RoutePart.pathComponent c :: ss, op :: os, seen =>
    if RoutePart.pathComponent c = op then pathEqLoop ss os seen else false
  | RoutePart.param _ :: ss, _ :: os, seen => pathEqLoop ss os seen
  | RoutePart.leader :: ss, _ :: os, seen =>
    if seen then false else pathEqLoop ss os true
  | _, _, _ => true

/-- `PartialEq for Path`: unequal lengths are unequal, otherwise run the
positional walk with `leader_seen = false`. -/
def Path.eqb (self other : Path) : Bool :=
  if other.parts.length ≠ self.parts.length then false
  else pathEqLoop self.parts other.parts false

/-- `Path::matches`: compile the candidate and compare with `PartialEq`
(`self.eq(&Self::new(s))`). -/
def Path.matches (self : Path) (s : List Char) : Bool :=
  Path.eqb self (Path.new s)

/-- Rendering of one part inside `ToString for Path`. -/
def RoutePart.render : RoutePart → List Char
  | .pathComponent pc => pc
  | .param p => ':' :: p
  | .leader => []

/-- `ToString for Path`: render every part, return `"/"` when fewer than two
parts, else join with `'/'`. -/
def Path.toCanonical (self : Path) : List Char :=
  let s := self.parts.map RoutePart.render
  if s.length < 2 then "/".data else joinSlash s

/-- `Ord for Path`: compare the canonical strings. -/
def Path.cmp (self other : Path) : Ordering :=
  strCmp self.toCanonical other.toCanonical

/-- `Params` (`src/lib.rs`): `BTreeMap<String, String>`, modelled as an
association list strictly sorted by `strCmp` on the key. -/
abbrev Params := List (List Char × List Char)

/-- `BTreeMap::insert`: replace the binding when the key is present, else
place the new binding at its sorted position. -/
def insertParam (k v : List Char) : Params → Params
  | [] => [(k, v)]
  | (k', v') :: rest =>
    match strCmp k k' with
    | .eq => (k, v) :: rest
    | .lt => (k, v) :: (k', v') :: rest
    | .gt => (k', v') :: insertParam k v rest

/-- `Error` (`src/lib.rs`): either a literal status code with a message, or an
internal server error carrying a message.  Status codes are the `Nat` value of
the `http::StatusCode`. -/
inductive Error where
  | statusCode (status : Nat) (message : List Char)
  | internalServerError (message : List Char)
deriving DecidableEq

/-- `Error::new`: any message becomes `InternalServerError`. -/
def Error.new (message : List Char) : Error :=
  Error.internalServerError message

deriving instance DecidableEq for Except

/-- Outcome of running a piece of Rust code that may panic on a slice index:
`indexOutOfBounds` models the panic, `value` a normal return. -/
inductive Exec (α : Type) where
  | indexOutOfBounds
  | value (a : α)
deriving DecidableEq

/-- The `for part in self.0` loop of `Path::extract`, with `i` the running
index into the candidate's segments.  `parts[i]` is Rust slice indexing and
panics when out of bounds, hence the `Exec` wrapper. -/
def extractLoop :
    List RoutePart → List (List Char) → Nat → Params → Exec (Except Error Params)
  | [], _, _, ps => .value (.ok ps)
  | part :: rest, segs, i, ps =>
    match segs.get? i with
    | none => .indexOutOfBounds
    | some seg =>
      match part with
      | .param p => extractLoop rest segs (i + 1) (insertParam p seg ps)
      | .pathComponent c =>
        if c ≠ seg then
          .value (.error (Error.new "invalid path for parameter extraction".data))
        else extractLoop rest segs (i + 1) ps
      | .leader => extractLoop rest segs (i + 1) ps

/-- `Path::extract`: trim trailing slashes; an empty candidate against the
default path yields the empty map; otherwise split, compare segment counts,
and walk the parts. -/
def Path.extract (self : Path) (provided : List Char) : Exec (Except Error Params) :=
  let provided := trimEndSlashes provided
  if provided = [] ∧ Path.eqb self Path.defaultPath = true then .value (.ok [])
  else
    let parts := splitOnSlash provided
    if parts.length ≠ self.parts.length then
      .value (.error (Error.new "invalid parameters".data))
    else extractLoop self.parts parts 0 []

/-- `http::Method`, restricted to the nine methods the registration surface
exposes. -/
inductive Method where
  | GET | POST | PUT | DELETE | PATCH | HEAD | OPTIONS | TRACE | CONNECT
deriving DecidableEq

/-- The fields of `http::Request` that the core inspects: the method and
`uri().path()`.  Handler functions receive and may replace whole requests, so
no further structure is needed. -/
structure Request where
  method : Method
  uriPath : List Char
deriving DecidableEq

/-- The fields of `http::Response` the core produces and forwards: status and
body. -/
structure Response where
  status : Nat
  body : List Char
deriving DecidableEq

/-- `HTTPResult` (`src/lib.rs`): a handler returns the possibly replaced
request, an optional response, and the forwarded transient state — or an
`Error`. -/
abbrev HTTPResult (T : Type) := Except Error (Request × Option Response × T)

/-- `TransientState` (`src/lib.rs`): per-dispatch state with an `initial`
constructor. -/
class TransientState (T : Type) where
  initial : T

instance : TransientState Unit := ⟨()⟩

/-- `HandlerFunc` (`src/handler.rs`).  In Rust the fourth argument is the
`App<S, T>` handle; every core operation threads it through opaquely, so it is
abstracted here as a type parameter `A` (which also subsumes the shared-state
parameter `S`). -/
abbrev HandlerFunc (T A : Type) :=
  Request → Option Response → Params → A → T → HTTPResult T

/-- `Handler` (`src/handler.rs`): a function plus an optional owned next
node. -/
inductive Handler (T A : Type) where
  | mk (handler : HandlerFunc T A) (next : Option (Handler T A))

/-- `Handler::perform`: run this node's function; on error stop with that
error; on success recurse into `next` with the returned triple (and the same
`params` and `app`), or return the triple when there is no next node. -/
def Handler.perform : Handler T A → Request → Option Response → Params → A → T → HTTPResult T
  | .mk f next, req, resp, params, app, st =>
    match f req resp params app st with
    | .error e => .error e
    | .ok (req', resp', st') =>
      match next with
      | some n => n.perform req' resp' params app st'
      | none => .ok (req', resp', st')

/-- `Route` (`src/router.rs`). -/
structure Route (T A : Type) where
  method : Method
  path : Path
  handler : Handler T A

/-- `Path::extract` with the panic outcome collapsed; `extract_no_panic`
proves the collapse never fires, so `Route.dispatch` below sees exactly the
Rust `Result`. -/
def Path.extractE (self : Path) (provided : List Char) : Except Error Params :=
  match self.extract provided with
  | .indexOutOfBounds => .error (Error.new [])
  | .value v => v

/-- `Route::dispatch`: extract params (propagating its error), then reject a
method mismatch with `404 NOT_FOUND` and an empty message, else run the
handler chain with `response = None`. -/
def Route.dispatch (self : Route T A) (provided : List Char) (req : Request)
    (app : A) (state : T) : HTTPResult T :=
  match self.path.extractE provided with
  | .error e => .error e
  | .ok params =>
    if self.method ≠ req.method then
      .error (Error.statusCode 404 [])
    else
      self.handler.perform req none params app state

/-- `Router` (`src/router.rs`): the ordered route table. -/
structure Router (T A : Type) where
  routes : List (Route T A)

/-- `Router::new`. -/
def Router.new : Router T A := ⟨[]⟩

/-- `Router::add`: compile the pattern and append the new route. -/
def Router.add (self : Router T A) (method : Method) (path : List Char)
    (ch : Handler T A) : Router T A :=
  ⟨self.routes ++ [⟨method, Path.new path, ch⟩]⟩

/-- The body of `Router::dispatch` once a route has passed the
path-match-and-method test: run `Route::dispatch` with a fresh
`T::initial()`; propagate its error; a missing response becomes
`500 INTERNAL_SERVER_ERROR` with an empty message. -/
def Router.handleRoute [TransientState T] (route : Route T A) (req : Request)
    (app : A) : Except Error Response :=
  match route.dispatch req.uriPath req app TransientState.initial with
  | .error e => .error e
  | .ok (_, response, _) =>
    match response with
    | none => .error (Error.statusCode 500 [])
    | some resp => .ok resp

/-- The `for route in self.0` loop of `Router::dispatch`: first route whose
path matches and whose method equals the request method is handled; when the
table is exhausted the result is `405 METHOD_NOT_ALLOWED` with an empty
message. -/
def Router.dispatchLoop [TransientState T] :
    List (Route T A) → Request → A → Except Error Response
  | [], _, _ => .error (Error.statusCode 405 [])
  | route :: rest, req, app =>
    if route.path.matches req.uriPath = true ∧ route.method = req.method then
      Router.handleRoute route req app
    else
      Router.dispatchLoop rest req app

/-- `Router::dispatch`. -/
def Router.dispatch [TransientState T] (self : Router T A) (req : Request)
    (app : A) : Except Error Response :=
  Router.dispatchLoop self.routes req app

/-- `App` (`src/app.rs`): the router plus the optional process-wide shared
state (the contents of the `Arc<Mutex<S>>` cell). -/
structure App (S T A : Type) where
  router : Router T A
  globalState : Option S

/-- `App::new`: no shared state. -/
def App.new : App S T A := ⟨Router.new, none⟩

/-- `App::with_state`. -/
def App.withState (state : S) : App S T A := ⟨Router.new, some state⟩

/-- `App::state`. -/
def App.state (self : App S T A) : Option S := self.globalState

/-- `App::dispatch`: delegate to `Router::dispatch` (in Rust the handle passed
down is `self.clone()`; here it is the abstract `A` value `handle`), then map
any error to a concrete response: a status-code error renders its status and
message body, any other error renders `500` with its message as body.  The
Rust return type is `Result<_, Infallible>`: the mapping is total. -/
def App.dispatch [TransientState T] (self : App S T A) (handle : A)
    (req : Request) : Response :=
  match self.router.dispatch req handle with
  | .ok resp => resp
  | .error (.statusCode sc msg) => ⟨sc, msg⟩
  | .error (.internalServerError e) => ⟨500, e⟩

example : Path.new "/a/b/c".data =
    ⟨[.leader, .pathComponent "a".data, .pathComponent "b".data, .pathComponent "c".data]⟩ := by
  decide

example : Path.new "/a/:name/c".data =
    ⟨[.leader, .pathComponent "a".data, .param "name".data, .pathComponent "c".data]⟩ := by
  decide

example : Path.new "/".data = Path.defaultPath := by decide
example : Path.new "".data = Path.defaultPath := by decide
example : Path.new "/account/".data = Path.new "/account".data := by decide

example : Path.matches (Path.new "/abc/def/ghi".data) "/abc/def/ghi".data = true := by decide
example : Path.matches (Path.new "/abc/def/ghi".data) "//abc/def/ghi".data = true := by decide
example : Path.matches (Path.new "/abc/def/ghi".data) "/def/ghi".data = false := by decide
example : Path.matches (Path.new "/abc/:def/:ghi/jkl".data) "/abc/wooble/wakka/jkl".data = true := by decide
example : Path.matches (Path.new "/abc/:def/:ghi/jkl".data) "/nope/ghi/def/jkl".data = false := by decide

example : Path.extract (Path.new "/abc/:def/:ghi/jkl".data) "/abc/wooble/wakka/jkl".data =
    .value (.ok [("def".data, "wooble".data), ("ghi".data, "wakka".data)]) := by decide

example : Path.extract (Path.new "/".data) "/".data = .value (.ok []) := by decide

example : Path.toCanonical (Path.new "/abc/:wooble/:wakka/jkl".data) =
    "/abc/:wooble/:wakka/jkl".data := by decide

example : Path.toCanonical Path.defaultPath = "/".data := by decide

example :
    Router.dispatch
      ((Router.new.add Method.GET "/a/b/c".data
          (Handler.mk (fun r _ _ (_ : Unit) (s : Unit) => .ok (r, some ⟨201, "H1".data⟩, s)) none)).add
        Method.GET "/a/:name/c".data
          (Handler.mk (fun r _ _ _ s => .ok (r, some ⟨202, "H2".data⟩, s)) none))
      ⟨Method.GET, "/a/b/c".data⟩ () = .ok ⟨201, "H1".data⟩ := by
  decide

example :
    Router.dispatch (Router.new : Router Unit Unit) ⟨Method.GET, "/zzz".data⟩ () =
      .error (Error.statusCode 405 []) := by
  decide

theorem splitOnSlash_ne_nil (cs : List Char) : splitOnSlash cs ≠ [] := by
  induction cs with
  | nil => simp [splitOnSlash]
  | cons c rest ih =>
    by_cases h : c = '/'
    · simp [splitOnSlash, h]
    · simp only [splitOnSlash, if_neg h]
      cases hs : splitOnSlash rest with
      | nil => simp
      | cons s ss => simp

theorem splitOnSlash_append_slash (xs ys : List Char) :
    splitOnSlash (xs ++ '/' :: ys) = splitOnSlash xs ++ splitOnSlash ys := by
  induction xs with
  | nil => simp [splitOnSlash]
  | cons x xs ih =>
    by_cases h : x = '/'
    · simp [splitOnSlash, h, ih]
    · simp only [List.cons_append, splitOnSlash, if_neg h]
      rw [List.append_eq, ih]
      cases hs : splitOnSlash xs with
      | nil => exact absurd hs (splitOnSlash_ne_nil xs)
      | cons s ss => simp

theorem splitOnSlash_no_slash {cs : List Char} (h : '/' ∉ cs) : splitOnSlash cs = [cs] := by
  induction cs with
  | nil => simp [splitOnSlash]
  | cons c rest ih =>
    have hc : ¬ c = '/' := fun hc => h (by simp [hc])
    have hrest : '/' ∉ rest := fun hr => h (by simp [hr])
    simp only [splitOnSlash, if_neg hc, ih hrest]

theorem mem_splitOnSlash_no_slash {cs seg : List Char}
    (h : seg ∈ splitOnSlash cs) : '/' ∉ seg := by
  induction cs generalizing seg with
  | nil =>
    simp [splitOnSlash] at h
    simp [h]
  | cons c rest ih =>
    by_cases hc : c = '/'
    · simp only [splitOnSlash, if_pos hc, List.mem_cons] at h
      rcases h with h | h
      · simp [h]
      · exact ih h
    · simp only [splitOnSlash, if_neg hc] at h
      cases hs : splitOnSlash rest with
      | nil => exact absurd hs (splitOnSlash_ne_nil rest)
      | cons s ss =>
        rw [hs] at h
        rcases List.mem_cons.mp h with h | h
        · subst h
          intro hmem
          rcases List.mem_cons.mp hmem with h | h
          · exact hc h.symm
          · exact ih (hs ▸ List.mem_cons_self s ss) h
        · exact ih (hs ▸ List.mem_cons_of_mem s h)

theorem splitOnSlash_replicate (k : Nat) :
    splitOnSlash (List.replicate k '/') = List.replicate (k + 1) [] := by
  induction k with
  | zero => simp [splitOnSlash]
  | succ k ih => simp [List.replicate_succ, splitOnSlash, ih]

theorem splitOnSlash_append_replicate (xs : List Char) (k : Nat) :
    splitOnSlash (xs ++ List.replicate k '/') = splitOnSlash xs ++ List.replicate k [] := by
  cases k with
  | zero => simp
  | succ k =>
    rw [List.replicate_succ, splitOnSlash_append_slash, splitOnSlash_replicate]

theorem trimEndSlashes_append_slash (xs : List Char) :
    trimEndSlashes (xs ++ ['/']) = trimEndSlashes xs := by
  simp [trimEndSlashes, List.dropWhile]

theorem trimEndSlashes_append_ne_slash {c : Char} (xs : List Char) (h : c ≠ '/') :
    trimEndSlashes (xs ++ [c]) = xs ++ [c] := by
  simp [trimEndSlashes, List.dropWhile, h]

theorem trimEndSlashes_decomp (cs : List Char) :
    ∃ k, cs = trimEndSlashes cs ++ List.replicate k '/' := by
  have hrep : cs.reverse.takeWhile (fun c => c = '/') =
      List.replicate (cs.reverse.takeWhile (fun c => c = '/')).length '/' := by
    apply List.eq_replicate_of_mem
    intro b hb
    have := List.mem_takeWhile_imp hb
    simpa using this
  refine ⟨(cs.reverse.takeWhile (fun c => c = '/')).length, ?_⟩
  unfold trimEndSlashes
  conv_lhs => rw [← cs.reverse_reverse, ← List.takeWhile_append_dropWhile
    (fun c => c = '/') cs.reverse, List.reverse_append]
  conv_lhs => rw [hrep, List.reverse_replicate]

theorem joinSlash_cons_cons (s t : List Char) (ts : List (List Char)) :
    joinSlash (s :: t :: ts) = s ++ '/' :: joinSlash (t :: ts) := rfl

theorem splitOnSlash_joinSlash {segs : List (List Char)}
    (hne : segs ≠ []) (h : ∀ seg ∈ segs, '/' ∉ seg) :
    splitOnSlash (joinSlash segs) = segs := by
  induction segs with
  | nil => exact absurd rfl hne
  | cons s rest ih =>
    cases rest with
    | nil => simp [joinSlash, splitOnSlash_no_slash (h s (by simp))]
    | cons t ts =>
      rw [joinSlash_cons_cons, splitOnSlash_append_slash,
        splitOnSlash_no_slash (h s (by simp)),
        ih (by simp) (fun seg hseg => h seg (List.mem_cons_of_mem s hseg))]
      rfl

theorem char_toNat_inj {a b : Char} (h : a.toNat = b.toNat) : a = b :=
  Char.ext (UInt32.ext h)

theorem strCmp_eq_iff (a b : List Char) : strCmp a b = .eq ↔ a = b := by
  induction a generalizing b with
  | nil => cases b <;> simp [strCmp]
  | cons x xs ih =>
    cases b with
    | nil => simp [strCmp]
    | cons y ys =>
      by_cases h1 : x.toNat < y.toNat
      · simp only [strCmp, if_pos h1]
        constructor
        · intro h; cases h
        · intro h
          injection h with hx _
          subst hx
          exact absurd rfl (Nat.ne_of_lt h1)
      · by_cases h2 : y.toNat < x.toNat
        · simp only [strCmp, if_neg h1, if_pos h2]
          constructor
          · intro h; cases h
          · intro h
            injection h with hx _
            subst hx
            exact absurd rfl (Nat.ne_of_lt h2)
        · have hxy : x = y :=
            char_toNat_inj (Nat.le_antisymm (Nat.le_of_not_lt h2) (Nat.le_of_not_lt h1))
          subst hxy
          simp only [strCmp, if_neg h1, if_neg h2]
          rw [ih ys]
          constructor
          · intro h; rw [h]
          · intro h; injection h

/-- The parts contributed by one list of segments in `Path::new`'s loop:
`newLoop` only ever appends, so its effect is this pure function of the
segments. -/
def compSegs : List (List Char) → List RoutePart
  | [] => []
  | arg :: rest =>
    (if arg.head? = some ':' then [RoutePart.param (arg.dropWhile (fun c => c = ':'))]
     else if arg = [] then []
     else [RoutePart.pathComponent arg]) ++ compSegs rest

theorem newLoop_eq (acc : List RoutePart) (segs : List (List Char)) :
    Path.newLoop acc segs = acc ++ compSegs segs := by
  induction segs generalizing acc with
  | nil => simp [Path.newLoop, compSegs]
  | cons arg rest ih =>
    by_cases h1 : arg.head? = some ':'
    · simp [Path.newLoop, compSegs, h1, ih]
    · by_cases h2 : arg = []
      · simp [Path.newLoop, compSegs, h1, h2, ih]
      · simp [Path.newLoop, compSegs, h1, h2, ih]

theorem compSegs_append (xs ys : List (List Char)) :
    compSegs (xs ++ ys) = compSegs xs ++ compSegs ys := by
  induction xs with
  | nil => simp [compSegs]
  | cons x xs ih => simp [compSegs, ih]

theorem compSegs_replicate_nil (k : Nat) :
    compSegs (List.replicate k []) = [] := by
  induction k with
  | zero => simp [compSegs]
  | succ k ih => simp [List.replicate_succ, compSegs, ih]

/-- The invariant enjoyed by every part following the `Leader` of a compiled
path: never a `Leader`; a parameter's name is slash-free; a literal component
is nonempty, does not begin with `':'`, and is slash-free. -/
def TailOk : RoutePart → Prop
  | .leader => False
  | .param p => '/' ∉ p
  | .pathComponent c => c ≠ [] ∧ c.head? ≠ some ':' ∧ '/' ∉ c

theorem compSegs_tailOk {segs : List (List Char)}
    (h : ∀ seg ∈ segs, '/' ∉ seg) :
    ∀ part ∈ compSegs segs, TailOk part := by
  induction segs with
  | nil => simp [compSegs]
  | cons arg rest ih =>
    intro part hp
    simp only [compSegs] at hp
    rcases List.mem_append.mp hp with hp | hp
    · by_cases h1 : arg.head? = some ':'
      · simp only [if_pos h1, List.mem_singleton] at hp
        subst hp
        intro hmem
        exact h arg (by simp) ((List.dropWhile_sublist _).subset hmem)
      · by_cases h2 : arg = []
        · simp [if_neg h1, if_pos h2] at hp
        · simp only [if_neg h1, if_neg h2, List.mem_singleton] at hp
          subst hp
          exact ⟨h2, h1, h arg (by simp)⟩
    · exact ih (fun seg hs => h seg (List.mem_cons_of_mem arg hs)) part hp

theorem new_parts_of_slash {s : List Char} (h : '/' ∈ trimEndSlashes s) :
    (Path.new s).parts = .leader :: compSegs (splitOnSlash (trimEndSlashes s)) := by
  simp only [Path.new]
  rw [newLoop_eq, if_neg (by simp [h])]
  rfl

theorem new_parts_of_no_slash {s : List Char} (h : ¬ '/' ∈ trimEndSlashes s) :
    (Path.new s).parts = [.leader] := by
  simp only [Path.new, if_pos h]
  rfl

theorem new_shape (s : List Char) :
    ∃ L, (Path.new s).parts = .leader :: L ∧ ∀ part ∈ L, TailOk part := by
  by_cases h : '/' ∈ trimEndSlashes s
  · exact ⟨_, new_parts_of_slash h,
      compSegs_tailOk (fun seg hs => mem_splitOnSlash_no_slash hs)⟩
  · exact ⟨[], new_parts_of_no_slash h, by simp⟩

theorem pathEqLoop_refl {L : List RoutePart}
    (h : ∀ part ∈ L, part ≠ RoutePart.leader) (seen : Bool) :
    pathEqLoop L L seen = true := by
  induction L with
  | nil => rfl
  | cons p rest ih =>
    cases p with
    | pathComponent c =>
      simp only [pathEqLoop, if_pos rfl]
      exact ih (fun part hp => h part (List.mem_cons_of_mem _ hp))
    | param q =>
      simp only [pathEqLoop]
      exact ih (fun part hp => h part (List.mem_cons_of_mem _ hp))
    | leader => exact absurd rfl (h _ (by simp))

theorem eqb_new_refl (s : List Char) : Path.eqb (Path.new s) (Path.new s) = true := by
  obtain ⟨L, hL, hok⟩ := new_shape s
  unfold Path.eqb
  rw [hL, if_neg (by simp)]
  show pathEqLoop (.leader :: L) (.leader :: L) false = true
  simp only [pathEqLoop, Bool.false_eq_true, if_false]
  exact pathEqLoop_refl (fun part hp => by
    have := hok part hp
    cases part <;> simp_all [TailOk]) true

theorem extractLoop_no_oob :
    ∀ (rps : List RoutePart) (segs : List (List Char)) (i : Nat) (ps : Params),
      i + rps.length ≤ segs.length →
      extractLoop rps segs i ps ≠ .indexOutOfBounds := by
  intro rps
  induction rps with
  | nil => intro segs i ps _; simp [extractLoop]
  | cons part rest ih =>
    intro segs i ps h
    have hi : i < segs.length := by simp only [List.length_cons] at h; omega
    obtain ⟨seg, hseg⟩ : ∃ seg, segs.get? i = some seg :=
      ⟨_, List.get?_eq_get hi⟩
    have hrec : i + 1 + rest.length ≤ segs.length := by
      simp only [List.length_cons] at h; omega
    cases part with
    | param p =>
      simp only [extractLoop, hseg]
      exact ih segs (i + 1) _ hrec
    | pathComponent c =>
      simp only [extractLoop, hseg]
      by_cases hc : c ≠ seg
      · simp [if_pos hc]
      · simp only [if_neg hc]
        exact ih segs (i + 1) ps hrec
    | leader =>
      simp only [extractLoop, hseg]
      exact ih segs (i + 1) ps hrec

theorem extract_no_oob (p : Path) (s : List Char) :
    Path.extract p s ≠ .indexOutOfBounds := by
  unfold Path.extract
  by_cases h1 : trimEndSlashes s = [] ∧ Path.eqb p Path.defaultPath = true
  · simp [if_pos h1]
  · simp only [if_neg h1]
    by_cases h2 : (splitOnSlash (trimEndSlashes s)).length ≠ p.parts.length
    · simp [if_pos h2]
    · simp only [if_neg h2]
      have hlen : (splitOnSlash (trimEndSlashes s)).length = p.parts.length := by
        by_contra hne
        exact h2 hne
      exact extractLoop_no_oob p.parts (splitOnSlash (trimEndSlashes s)) 0 []
        (by omega)

theorem extract_eq_value (p : Path) (s : List Char) :
    Path.extract p s = .value (Path.extractE p s) := by
  cases h : Path.extract p s with
  | indexOutOfBounds => exact absurd h (extract_no_oob p s)
  | value v => simp [Path.extractE, h]

/-- The in-bounds reading of `Path::extract`'s loop: walk the parts zipped
with the candidate's segments. -/
def extractZip : List (RoutePart × List Char) → Params → Except Error Params
  | [], ps => .ok ps
  | (part, seg) :: rest, ps =>
    match part with
    | .param p => extractZip rest (insertParam p seg ps)
    | .pathComponent c =>
      if c ≠ seg then .error (Error.new "invalid path for parameter extraction".data)
      else extractZip rest ps
    | .leader => extractZip rest ps

theorem extractLoop_eq_zip :
    ∀ (rps : List RoutePart) (segs tl : List (List Char)) (i : Nat) (ps : Params),
      segs.drop i = tl → rps.length ≤ tl.length →
      extractLoop rps segs i ps = .value (extractZip (rps.zip tl) ps) := by
  intro rps
  induction rps with
  | nil => intro segs tl i ps _ _; simp [extractLoop, extractZip]
  | cons part rest ih =>
    intro segs tl i ps hdrop hlen
    cases tl with
    | nil => simp at hlen
    | cons seg tl' =>
      have hget : segs.get? i = some seg := by
        rw [List.get?_eq_getElem?]
        have h0 := List.getElem?_drop segs i 0
        rw [hdrop] at h0
        simpa using h0.symm
      have hdrop' : segs.drop (i + 1) = tl' := by
        have h1 : (segs.drop i).drop 1 = tl' := by rw [hdrop]; rfl
        rwa [List.drop_drop] at h1
      have hlen' : rest.length ≤ tl'.length := by
        simp only [List.length_cons] at hlen; omega
      rw [List.zip_cons_cons]
      cases part with
      | param p =>
        simp only [extractLoop, hget, extractZip]
        exact ih segs tl' (i + 1) _ hdrop' hlen'
      | pathComponent c =>
        simp only [extractLoop, hget, extractZip]
        by_cases hc : c ≠ seg
        · simp [if_pos hc]
        · simp only [if_neg hc]
          exact ih segs tl' (i + 1) ps hdrop' hlen'
      | leader =>
        simp only [extractLoop, hget, extractZip]
        exact ih segs tl' (i + 1) ps hdrop' hlen'

/-- The part produced by one nonempty candidate segment in `Path::new`. -/
def toPart (seg : List Char) : RoutePart :=
  if seg.head? = some ':' then RoutePart.param (seg.dropWhile (fun c => c = ':'))
  else RoutePart.pathComponent seg

theorem compSegs_of_ne_nil {t : List (List Char)} (h : ∀ seg ∈ t, seg ≠ []) :
    compSegs t = t.map toPart := by
  induction t with
  | nil => simp [compSegs]
  | cons seg rest ih =>
    by_cases h1 : seg.head? = some ':'
    · simp only [compSegs, if_pos h1, List.map_cons, toPart, ih
        (fun s hs => h s (List.mem_cons_of_mem seg hs))]
      rfl
    · simp only [compSegs, if_neg h1, if_neg (h seg (by simp)), List.map_cons, toPart,
        ih (fun s hs => h s (List.mem_cons_of_mem seg hs))]
      rfl

/-- Well-formedness of a candidate request path: after trimming trailing
slashes it is either empty, or begins with `'/'` and contains no empty
(duplicate-slash) internal segment. -/
def goodCandidate (s : List Char) : Bool :=
  match splitOnSlash (trimEndSlashes s) with
  | [] => false
  | h :: t => h.isEmpty && t.all (fun seg => !seg.isEmpty)

theorem extractZip_ok_of_eqLoop :
    ∀ (L : List RoutePart) (t : List (List Char)) (ps : Params),
      pathEqLoop L (t.map toPart) true = true →
      L.length = t.length →
      ∃ ps', extractZip (L.zip t) ps = .ok ps' := by
  intro L
  induction L with
  | nil => intro t ps _ _; exact ⟨ps, rfl⟩
  | cons part rest ih =>
    intro t ps heq hlen
    cases t with
    | nil => simp at hlen
    | cons seg t' =>
      have hlen' : rest.length = t'.length := by
        simp only [List.length_cons] at hlen; omega
      rw [List.zip_cons_cons]
      cases part with
      | leader => simp [pathEqLoop] at heq
      | param p =>
        simp only [List.map_cons, pathEqLoop] at heq
        exact ih t' (insertParam p seg ps) heq hlen'
      | pathComponent c =>
        simp only [List.map_cons, pathEqLoop] at heq
        by_cases hc : RoutePart.pathComponent c = toPart seg
        · have hseg : toPart seg = RoutePart.pathComponent seg ∧ c = seg := by
            unfold toPart at hc ⊢
            by_cases h1 : seg.head? = some ':'
            · rw [if_pos h1] at hc; cases hc
            · rw [if_neg h1] at hc ⊢
              exact ⟨rfl, by injection hc⟩
          rw [if_pos hc] at heq
          obtain ⟨hts, hcs⟩ := hseg
          subst hcs
          simp only [extractZip]
          rw [if_neg (show ¬ c ≠ c from fun h => h rfl)]
          exact ih t' ps heq hlen'
        · rw [if_neg hc] at heq
          cases heq

/-- A compiled path has exactly one `Leader`: it is the head, and the tail is
leader-free. -/
theorem new_exactly_one_leader (s : List Char) :
    ∃ L, (Path.new s).parts = RoutePart.leader :: L ∧ RoutePart.leader ∉ L := by
  obtain ⟨L, hL, hok⟩ := new_shape s
  refine ⟨L, hL, fun hmem => ?_⟩
  have := hok _ hmem
  simp [TailOk] at this

theorem pathEqLoop_leader_seen :
    ∀ (ss os : List RoutePart), RoutePart.leader ∈ ss → ss.length = os.length →
      pathEqLoop ss os true = false := by
  intro ss
  induction ss with
  | nil => intro os h _; simp at h
  | cons part rest ih =>
    intro os hmem hlen
    cases os with
    | nil => simp at hlen
    | cons o os' =>
      have hlen' : rest.length = os'.length := by
        simp only [List.length_cons] at hlen; omega
      cases part with
      | leader => simp [pathEqLoop]
      | param p =>
        have : RoutePart.leader ∈ rest := by
          rcases List.mem_cons.mp hmem with h | h
          · cases h
          · exact h
        simp only [pathEqLoop]
        exact ih os' this hlen'
      | pathComponent c =>
        have : RoutePart.leader ∈ rest := by
          rcases List.mem_cons.mp hmem with h | h
          · cases h
          · exact h
        simp only [pathEqLoop]
        rw [ih os' this hlen']
        simp

theorem pathEqLoop_two_leaders :
    ∀ (xs ys zs os : List RoutePart),
      (xs ++ RoutePart.leader :: ys ++ RoutePart.leader :: zs).length = os.length →
      pathEqLoop (xs ++ RoutePart.leader :: ys ++ RoutePart.leader :: zs) os false = false := by
  intro xs
  induction xs with
  | nil =>
    intro ys zs os hlen
    cases os with
    | nil => simp at hlen
    | cons o os' =>
      simp only [List.nil_append, pathEqLoop, Bool.false_eq_true, if_false]
      apply pathEqLoop_leader_seen
      · simp
      · simp only [List.nil_append, List.append_eq, List.length_cons,
          List.length_append] at hlen ⊢
        omega
  | cons x xs' ih =>
    intro ys zs os hlen
    cases os with
    | nil => simp at hlen
    | cons o os' =>
      have hlen' : (xs' ++ RoutePart.leader :: ys ++ RoutePart.leader :: zs).length =
          os'.length := by
        simp only [List.cons_append, List.length_cons] at hlen
        omega
      cases x with
      | leader =>
        simp only [List.cons_append, pathEqLoop, Bool.false_eq_true, if_false]
        apply pathEqLoop_leader_seen
        · simp
        · exact hlen'
      | param p =>
        simp only [List.cons_append, pathEqLoop]
        exact ih ys zs os' hlen'
      | pathComponent c =>
        simp only [List.cons_append, pathEqLoop, List.append_eq]
        by_cases hco : RoutePart.pathComponent c = o
        · rw [if_pos hco, ih ys zs os' hlen']
        · rw [if_neg hco]

theorem eqb_two_leaders (xs ys zs : List RoutePart) (q : Path) :
    Path.eqb ⟨xs ++ RoutePart.leader :: ys ++ RoutePart.leader :: zs⟩ q = false := by
  unfold Path.eqb
  by_cases hlen : q.parts.length ≠ (xs ++ RoutePart.leader :: ys ++ RoutePart.leader :: zs).length
  · rw [if_pos hlen]
  · rw [if_neg hlen]
    push_neg at hlen
    exact pathEqLoop_two_leaders xs ys zs q.parts hlen.symm

theorem dispatchLoop_append_of_no_match {T A : Type} [TransientState T]
    (pre rest : List (Route T A)) (req : Request) (app : A)
    (h : ∀ r ∈ pre, ¬(r.path.matches req.uriPath = true ∧ r.method = req.method)) :
    Router.dispatchLoop (pre ++ rest) req app = Router.dispatchLoop rest req app := by
  induction pre with
  | nil => rfl
  | cons r pre' ih =>
    simp only [List.cons_append, Router.dispatchLoop, if_neg (h r (by simp))]
    exact ih (fun r' hr => h r' (List.mem_cons_of_mem r hr))

theorem dispatchLoop_cons_of_match {T A : Type} [TransientState T]
    (r : Route T A) (rest : List (Route T A)) (req : Request) (app : A)
    (h1 : r.path.matches req.uriPath = true) (h2 : r.method = req.method) :
    Router.dispatchLoop (r :: rest) req app = Router.handleRoute r req app := by
  simp only [Router.dispatchLoop, if_pos (And.intro h1 h2)]

theorem render_ne_nil {part : RoutePart} (h : TailOk part) : part.render ≠ [] := by
  cases part with
  | leader => cases h
  | param p => simp [RoutePart.render]
  | pathComponent c => simpa [RoutePart.render] using h.1

theorem render_no_slash {part : RoutePart} (h : TailOk part) : '/' ∉ part.render := by
  cases part with
  | leader => cases h
  | param p =>
    simp only [RoutePart.render, List.mem_cons]
    rintro (hc | hc)
    · cases hc
    · exact h hc
  | pathComponent c => exact h.2.2

theorem render_inj {a b : RoutePart} (ha : TailOk a) (hb : TailOk b)
    (h : a.render = b.render) : a = b := by
  cases a with
  | leader => cases ha
  | param p =>
    cases b with
    | leader => cases hb
    | param q =>
      simp only [RoutePart.render] at h
      injection h with h1 h2
      rw [h2]
    | pathComponent d =>
      exfalso
      simp only [RoutePart.render] at h
      exact hb.2.1 (by rw [← h]; rfl)
  | pathComponent c =>
    cases b with
    | leader => cases hb
    | param q =>
      exfalso
      simp only [RoutePart.render] at h
      exact ha.2.1 (by rw [h]; rfl)
    | pathComponent d => simp only [RoutePart.render] at h; rw [h]

theorem map_render_inj {L M : List RoutePart}
    (hL : ∀ part ∈ L, TailOk part) (hM : ∀ part ∈ M, TailOk part)
    (h : L.map RoutePart.render = M.map RoutePart.render) : L = M := by
  induction L generalizing M with
  | nil =>
    cases M with
    | nil => rfl
    | cons m M' => simp at h
  | cons a L' ih =>
    cases M with
    | nil => simp at h
    | cons m M' =>
      simp only [List.map_cons, List.cons.injEq] at h
      rw [render_inj (hL a (by simp)) (hM m (by simp)) h.1,
        ih (fun part hp => hL part (List.mem_cons_of_mem a hp))
          (fun part hp => hM part (List.mem_cons_of_mem m hp)) h.2]

theorem joinSlash_ne_nil {r : List Char} (rs : List (List Char)) (h : r ≠ []) :
    joinSlash (r :: rs) ≠ [] := by
  cases rs with
  | nil => simpa [joinSlash] using h
  | cons t ts =>
    rw [joinSlash_cons_cons]
    intro hcontra
    rcases List.append_eq_nil.mp hcontra with ⟨h1, h2⟩
    exact h h1

theorem toCanonical_leader_nil : Path.toCanonical ⟨[RoutePart.leader]⟩ = ['/'] := by decide

theorem toCanonical_leader_cons {a : RoutePart} (L' : List RoutePart) :
    Path.toCanonical ⟨RoutePart.leader :: a :: L'⟩ =
      '/' :: joinSlash (RoutePart.render a :: L'.map RoutePart.render) := by
  unfold Path.toCanonical
  simp only [List.map_cons, List.length_cons]
  rw [if_neg (by omega)]
  rfl

theorem path_eq_of_parts {p q : Path} (h : p.parts = q.parts) : p = q := by
  cases p
  cases q
  cases h
  rfl

theorem canon_inj_compiled {s t : List Char}
    (h : Path.toCanonical (Path.new s) = Path.toCanonical (Path.new t)) :
    Path.new s = Path.new t := by
  obtain ⟨L, hL, hokL⟩ := new_shape s
  obtain ⟨M, hM, hokM⟩ := new_shape t
  rw [path_eq_of_parts hL, path_eq_of_parts hM] at h ⊢
  cases L with
  | nil =>
    cases M with
    | nil => rfl
    | cons m M' =>
      exfalso
      rw [toCanonical_leader_nil, toCanonical_leader_cons] at h
      have hmne : RoutePart.render m ≠ [] := render_ne_nil (hokM m (by simp))
      have := joinSlash_ne_nil (M'.map RoutePart.render) hmne
      injection h with _ h2
      exact this h2.symm
  | cons a L' =>
    cases M with
    | nil =>
      exfalso
      rw [toCanonical_leader_nil, toCanonical_leader_cons] at h
      have hane : RoutePart.render a ≠ [] := render_ne_nil (hokL a (by simp))
      have := joinSlash_ne_nil (L'.map RoutePart.render) hane
      injection h with _ h2
      exact this h2
    | cons m M' =>
      rw [toCanonical_leader_cons, toCanonical_leader_cons] at h
      injection h with _ h2
      have hLmap : ∀ seg ∈ RoutePart.render a :: L'.map RoutePart.render, '/' ∉ seg := by
        intro seg hseg
        rcases List.mem_cons.mp hseg with hseg | hseg
        · subst hseg; exact render_no_slash (hokL a (by simp))
        · obtain ⟨part, hpart, hrend⟩ := List.mem_map.mp hseg
          subst hrend
          exact render_no_slash (hokL part (List.mem_cons_of_mem a hpart))
      have hMmap : ∀ seg ∈ RoutePart.render m :: M'.map RoutePart.render, '/' ∉ seg := by
        intro seg hseg
        rcases List.mem_cons.mp hseg with hseg | hseg
        · subst hseg; exact render_no_slash (hokM m (by simp))
        · obtain ⟨part, hpart, hrend⟩ := List.mem_map.mp hseg
          subst hrend
          exact render_no_slash (hokM part (List.mem_cons_of_mem m hpart))
      have hmap : (a :: L').map RoutePart.render = (m :: M').map RoutePart.render := by
        have hsj :
            splitOnSlash (joinSlash (RoutePart.render a :: L'.map RoutePart.render)) =
            splitOnSlash (joinSlash (RoutePart.render m :: M'.map RoutePart.render)) := by
          rw [h2]
        rw [splitOnSlash_joinSlash (by simp) hLmap,
          splitOnSlash_joinSlash (by simp) hMmap] at hsj
        simpa using hsj
      rw [map_render_inj hokL hokM hmap]

theorem new_append_slash (p : List Char) : Path.new (p ++ ['/']) = Path.new p := by
  unfold Path.new
  rw [trimEndSlashes_append_slash]

theorem compSegs_split_trim (p : List Char) :
    compSegs (splitOnSlash p) = compSegs (splitOnSlash (trimEndSlashes p)) := by
  obtain ⟨k, hk⟩ := trimEndSlashes_decomp p
  conv_lhs => rw [hk]
  rw [splitOnSlash_append_replicate, compSegs_append, compSegs_replicate_nil,
    List.append_nil]

theorem new_append_extra_parts (p : List Char) :
    (Path.new (p ++ "/extra".data)).parts =
      RoutePart.leader :: (compSegs (splitOnSlash (trimEndSlashes p)) ++
        [RoutePart.pathComponent "extra".data]) := by
  have htrim : trimEndSlashes (p ++ "/extra".data) = p ++ "/extra".data := by
    have hsplit : p ++ "/extra".data = (p ++ "/extr".data) ++ ['a'] := by
      rw [List.append_assoc]
      rfl
    rw [hsplit, trimEndSlashes_append_ne_slash _ (by decide)]
  have hmem : '/' ∈ trimEndSlashes (p ++ "/extra".data) := by
    rw [htrim]
    exact List.mem_append.mpr (Or.inr (by decide))
  rw [new_parts_of_slash hmem, htrim]
  have hsplit2 : splitOnSlash (p ++ "/extra".data) =
      splitOnSlash p ++ ["extra".data] := by
    have heq : p ++ "/extra".data = p ++ '/' :: "extra".data := rfl
    rw [heq, splitOnSlash_append_slash,
      splitOnSlash_no_slash (show '/' ∉ "extra".data by decide)]
  rw [hsplit2, compSegs_append, compSegs_split_trim]
  have hex : compSegs ["extra".data] = [RoutePart.pathComponent "extra".data] := by decide
  rw [hex]

theorem extract_count_mismatch (p : Path) (s : List Char)
    (h1 : ¬(trimEndSlashes s = [] ∧ Path.eqb p Path.defaultPath = true))
    (h2 : (splitOnSlash (trimEndSlashes s)).length ≠ p.parts.length) :
    Path.extract p s = .value (.error (Error.new "invalid parameters".data)) := by
  simp only [Path.extract]
  rw [if_neg h1, if_pos h2]

theorem extractLoop_literal_mismatch :
    ∀ (rps : List RoutePart) (segs : List (List Char)) (i : Nat) (ps : Params),
      i + rps.length ≤ segs.length →
      (∃ j c seg, rps.get? j = some (RoutePart.pathComponent c) ∧
        segs.get? (i + j) = some seg ∧ c ≠ seg) →
      extractLoop rps segs i ps =
        .value (.error (Error.new "invalid path for parameter extraction".data)) := by
  intro rps
  induction rps with
  | nil =>
    intro segs i ps _ hex
    obtain ⟨j, c, seg, hj, _, _⟩ := hex
    simp at hj
  | cons part rest ih =>
    intro segs i ps hlen hex
    have hi : i < segs.length := by simp only [List.length_cons] at hlen; omega
    obtain ⟨seg0, hseg0⟩ : ∃ seg0, segs.get? i = some seg0 := ⟨_, List.get?_eq_get hi⟩
    have hrec : i + 1 + rest.length ≤ segs.length := by
      simp only [List.length_cons] at hlen; omega
    obtain ⟨j, c, seg, hj, hseg, hne⟩ := hex
    cases j with
    | zero =>
      have hpart : part = RoutePart.pathComponent c := by
        simpa using hj
      subst hpart
      rw [Nat.add_zero, hseg0] at hseg
      injection hseg with hseg
      subst hseg
      simp only [extractLoop, hseg0, if_pos hne]
    | succ j' =>
      have hex' : ∃ j c seg, rest.get? j = some (RoutePart.pathComponent c) ∧
          segs.get? (i + 1 + j) = some seg ∧ c ≠ seg := by
        refine ⟨j', c, seg, by simpa using hj, ?_, hne⟩
        rw [show i + 1 + j' = i + (j' + 1) by omega]
        exact hseg
      cases part with
      | param q =>
        simp only [extractLoop, hseg0]
        exact ih segs (i + 1) _ hrec hex'
      | leader =>
        simp only [extractLoop, hseg0]
        exact ih segs (i + 1) ps hrec hex'
      | pathComponent c0 =>
        simp only [extractLoop, hseg0]
        by_cases hc0 : c0 ≠ seg0
        · rw [if_pos hc0]
        · rw [if_neg hc0]
          exact ih segs (i + 1) ps hrec hex'

theorem extract_literal_mismatch (p : Path) (s : List Char)
    (h1 : ¬(trimEndSlashes s = [] ∧ Path.eqb p Path.defaultPath = true))
    (h2 : (splitOnSlash (trimEndSlashes s)).length = p.parts.length)
    (h3 : ∃ j c seg, p.parts.get? j = some (RoutePart.pathComponent c) ∧
      (splitOnSlash (trimEndSlashes s)).get? j = some seg ∧ c ≠ seg) :
    Path.extract p s =
      .value (.error (Error.new "invalid path for parameter extraction".data)) := by
  simp only [Path.extract]
  rw [if_neg h1, if_neg (by omega)]
  apply extractLoop_literal_mismatch
  · omega
  · simpa using h3

theorem route_dispatch_method_eq {T A : Type} (r : Route T A) (provided : List Char)
    (req : Request) (app : A) (st : T) (h : r.method = req.method) :
    Route.dispatch r provided req app st =
      match r.path.extractE provided with
      | .error e => .error e
      | .ok params => r.handler.perform req none params app st := by
  unfold Route.dispatch
  cases hx : r.path.extractE provided with
  | error e => rfl
  | ok params => simp [h]

theorem extract_ok_of_match {r s : List Char}
    (hmatch : Path.matches (Path.new r) s = true)
    (hgood : goodCandidate s = true) :
    ∃ ps, Path.extract (Path.new r) s = .value (.ok ps) := by
  by_cases htrim : trimEndSlashes s = []
  · have hnews : Path.new s = Path.defaultPath := by
      unfold Path.new
      rw [htrim]
      simp
    have heqb : Path.eqb (Path.new r) Path.defaultPath = true := by
      unfold Path.matches at hmatch
      rwa [hnews] at hmatch
    refine ⟨[], ?_⟩
    simp only [Path.extract]
    rw [if_pos ⟨htrim, heqb⟩]
  · unfold goodCandidate at hgood
    cases hsplit : splitOnSlash (trimEndSlashes s) with
    | nil => exact absurd hsplit (splitOnSlash_ne_nil _)
    | cons h0 t =>
      rw [hsplit] at hgood
      simp only [Bool.and_eq_true, List.isEmpty_iff, List.all_eq_true,
        Bool.not_eq_eq_eq_not, Bool.not_true] at hgood
      obtain ⟨hh0, ht⟩ := hgood
      subst hh0
      have htne : ∀ seg ∈ t, seg ≠ [] := by
        intro seg hs hnil
        have := ht seg hs
        rw [hnil] at this
        simp at this
      have hslash : '/' ∈ trimEndSlashes s := by
        by_contra hno
        rw [splitOnSlash_no_slash hno] at hsplit
        injection hsplit with hx hy
        exact htrim hx
      have hcompnil : compSegs ([] :: t) = compSegs t := by
        simp [compSegs]
      have hnews : (Path.new s).parts = RoutePart.leader :: t.map toPart := by
        rw [new_parts_of_slash hslash, hsplit, hcompnil, compSegs_of_ne_nil htne]
      obtain ⟨L, hLparts, hLok⟩ := new_shape r
      unfold Path.matches Path.eqb at hmatch
      rw [hnews, hLparts] at hmatch
      by_cases hlen :
          (RoutePart.leader :: t.map toPart).length ≠ (RoutePart.leader :: L).length
      · rw [if_pos hlen] at hmatch
        cases hmatch
      · rw [if_neg hlen] at hmatch
        push_neg at hlen
        have hlen' : L.length = t.length := by
          simpa using hlen.symm
        have hloop : pathEqLoop L (t.map toPart) true = true := by
          simpa [pathEqLoop] using hmatch
        obtain ⟨ps', hps'⟩ := extractZip_ok_of_eqLoop L t [] hloop hlen'
        refine ⟨ps', ?_⟩
        simp only [Path.extract]
        rw [if_neg (fun hand => htrim hand.1), hsplit, hLparts]
        rw [if_neg (by simp [hlen'])]
        rw [extractLoop_eq_zip (RoutePart.leader :: L) ([] :: t) ([] :: t) 0 []
          (by simp) (by simp [hlen'])]
        rw [List.zip_cons_cons]
        simp only [extractZip]
        rw [hps']

/-- `Route::dispatch` with its internal method check removed: extract params
then run the chain.  `Router::dispatch` is proven equivalent to a loop over
this function, showing the `404 NOT_FOUND` branch of `Route::dispatch` is
dead code on that call path. -/
def Route.dispatchSansMethodCheck (self : Route T A) (provided : List Char)
    (req : Request) (app : A) (state : T) : HTTPResult T :=
  match self.path.extractE provided with
  | .error e => .error e
  | .ok params => self.handler.perform req none params app state

/-- The `Router::dispatch` loop rebuilt on top of
`Route.dispatchSansMethodCheck`. -/
def Router.dispatchLoopSansMethodCheck [TransientState T] :
    List (Route T A) → Request → A → Except Error Response
  | [], _, _ => .error (Error.statusCode 405 [])
  | route :: rest, req, app =>
    if route.path.matches req.uriPath = true ∧ route.method = req.method then
      match route.dispatchSansMethodCheck req.uriPath req app TransientState.initial with
      | .error e => .error e
      | .ok (_, response, _) =>
        match response with
        | none => .error (Error.statusCode 500 [])
        | some resp => .ok resp
    else Router.dispatchLoopSansMethodCheck rest req app

theorem dispatchLoop_eq_sansMethodCheck {T A : Type} [TransientState T]
    (routes : List (Route T A)) (req : Request) (app : A) :
    Router.dispatchLoop routes req app =
      Router.dispatchLoopSansMethodCheck routes req app := by
  induction routes with
  | nil => rfl
  | cons route rest ih =>
    by_cases hc : route.path.matches req.uriPath = true ∧ route.method = req.method
    · simp only [Router.dispatchLoop, Router.dispatchLoopSansMethodCheck, if_pos hc]
      unfold Router.handleRoute
      rw [route_dispatch_method_eq route req.uriPath req app TransientState.initial hc.2]
      rfl
    · simp only [Router.dispatchLoop, Router.dispatchLoopSansMethodCheck, if_neg hc]
      exact ih

/-- A pattern whose compiled form contains no `Param` segment. -/
def literalPattern (p : List Char) : Bool :=
  (Path.new p).parts.all (fun part =>
    match part with
    | RoutePart.param _ => false
    | _ => true)

/-- Claim C1: routes are dispatched in registration order and the first route
whose path structurally matches and whose method equals the request method
wins.  First conjunct: with every route before `r` failing the
path-match-and-method test and `r` passing it, `Router::dispatch` is exactly
the handling of `r` (independent of the routes after it).  Second conjunct:
registering `GET /a/b/c → H1` then `GET /a/:name/c → H2` and dispatching
`GET /a/b/c` invokes `H1`'s route, not `H2`'s. -/
theorem c1_first_match_wins :
    (∀ (T A : Type) [TransientState T] (pre post : List (Route T A)) (r : Route T A)
      (req : Request) (app : A),
      (∀ r' ∈ pre, ¬(r'.path.matches req.uriPath = true ∧ r'.method = req.method)) →
      r.path.matches req.uriPath = true → r.method = req.method →
      Router.dispatch ⟨pre ++ r :: post⟩ req app = Router.handleRoute r req app) ∧
    (∀ (T A : Type) [TransientState T] (h1 h2 : Handler T A) (app : A),
      Router.dispatch
        ((Router.new.add Method.GET "/a/b/c".data h1).add Method.GET "/a/:name/c".data h2)
        ⟨Method.GET, "/a/b/c".data⟩ app =
        Router.handleRoute ⟨Method.GET, Path.new "/a/b/c".data, h1⟩
          ⟨Method.GET, "/a/b/c".data⟩ app) := by
  constructor
  · intro T A _ pre post r req app hpre hmatch hmethod
    unfold Router.dispatch
    rw [dispatchLoop_append_of_no_match pre (r :: post) req app hpre]
    exact dispatchLoop_cons_of_match r post req app hmatch hmethod
  · intro T A _ h1 h2 app
    have hroutes : (((Router.new : Router T A).add Method.GET "/a/b/c".data h1).add
        Method.GET "/a/:name/c".data h2).routes =
        ⟨Method.GET, Path.new "/a/b/c".data, h1⟩ ::
          [⟨Method.GET, Path.new "/a/:name/c".data, h2⟩] := by
      simp [Router.add, Router.new]
    unfold Router.dispatch
    rw [hroutes]
    exact dispatchLoop_cons_of_match
      ⟨Method.GET, Path.new "/a/b/c".data, h1⟩
      [⟨Method.GET, Path.new "/a/:name/c".data, h2⟩]
      ⟨Method.GET, "/a/b/c".data⟩ app
      (show Path.matches (Path.new "/a/b/c".data) "/a/b/c".data = true by decide) rfl

/-- A pass-through handler function for concrete witnesses. -/
def okFn : HandlerFunc Unit Unit := fun r p _ _ s => .ok (r, p, s)

/-- An always-erroring handler function for concrete witnesses. -/
def boomFn : HandlerFunc Unit Unit := fun _ _ _ _ _ => .error (Error.new "boom".data)

/-- A single-node pass-through chain for concrete witnesses. -/
def okHandler : Handler Unit Unit := Handler.mk okFn none

/-- Claim C1 witness: the first conjunct applied to a concrete one-route
router. -/
theorem c1_witness :
    Router.dispatch (⟨[⟨Method.GET, Path.new "/w".data, okHandler⟩]⟩ : Router Unit Unit)
      ⟨Method.GET, "/w".data⟩ () =
      Router.handleRoute ⟨Method.GET, Path.new "/w".data, okHandler⟩
        ⟨Method.GET, "/w".data⟩ () :=
  c1_first_match_wins.1 Unit Unit [] []
    ⟨Method.GET, Path.new "/w".data, okHandler⟩
    ⟨Method.GET, "/w".data⟩ () (by simp) (by decide) rfl

/-- Claim C2: a handler function returning an error stops the chain
immediately and that error is the dispatch result.  First conjunct: a node
whose function errors yields that error whatever its `next` is.  Second
conjunct: in a three-node chain `[A, B, C]` where `A` succeeds and `B` errors,
the result is `B`'s error for every `C`.  Third conjunct: the error of a
matched route's chain is the result of `Router::dispatch`. -/
theorem c2_error_short_circuits :
    (∀ (T A : Type) (f : HandlerFunc T A) (next : Option (Handler T A)) (req : Request)
      (resp : Option Response) (params : Params) (app : A) (st : T) (e : Error),
      f req resp params app st = .error e →
      (Handler.mk f next).perform req resp params app st = .error e) ∧
    (∀ (T A : Type) (fA fB fC : HandlerFunc T A) (req r1 : Request)
      (resp p1 : Option Response) (params : Params) (app : A) (st s1 : T) (e : Error),
      fA req resp params app st = .ok (r1, p1, s1) →
      fB r1 p1 params app s1 = .error e →
      (Handler.mk fA (some (Handler.mk fB (some (Handler.mk fC none))))).perform
        req resp params app st = .error e) ∧
    (∀ (T A : Type) [TransientState T] (pre post : List (Route T A)) (m : Method)
      (pa : Path) (h : Handler T A) (req : Request) (app : A) (params : Params) (e : Error),
      (∀ r ∈ pre, ¬(r.path.matches req.uriPath = true ∧ r.method = req.method)) →
      pa.matches req.uriPath = true → m = req.method →
      pa.extractE req.uriPath = .ok params →
      h.perform req none params app TransientState.initial = .error e →
      Router.dispatch ⟨pre ++ ⟨m, pa, h⟩ :: post⟩ req app = .error e) := by
  refine ⟨?_, ?_, ?_⟩
  · intro T A f next req resp params app st e hf
    simp only [Handler.perform, hf]
  · intro T A fA fB fC req r1 resp p1 params app st s1 e hA hB
    simp only [Handler.perform, hA, hB]
  · intro T A _ pre post m pa h req app params e hpre hmatch hmethod hext hperf
    unfold Router.dispatch
    rw [dispatchLoop_append_of_no_match pre _ req app hpre,
      dispatchLoop_cons_of_match _ _ _ _ hmatch hmethod]
    simp only [Router.handleRoute, Route.dispatch, hext]
    rw [if_neg (by simp [hmethod])]
    rw [hperf]

/-- Claim C2 witness: the three conjuncts applied to concrete chains where
the erroring function returns `Error::new("boom")`. -/
theorem c2_witness :
    (Handler.mk boomFn none).perform ⟨Method.GET, "/".data⟩ none [] () () =
      .error (Error.new "boom".data) ∧
    (Handler.mk okFn (some (Handler.mk boomFn (some (Handler.mk okFn none))))).perform
      ⟨Method.GET, "/".data⟩ none [] () () = .error (Error.new "boom".data) ∧
    Router.dispatch
      (⟨[⟨Method.GET, Path.new "/".data, Handler.mk boomFn none⟩]⟩ : Router Unit Unit)
      ⟨Method.GET, "/".data⟩ () = .error (Error.new "boom".data) :=
  ⟨c2_error_short_circuits.1 Unit Unit boomFn none
      ⟨Method.GET, "/".data⟩ none [] () () (Error.new "boom".data) rfl,
   c2_error_short_circuits.2.1 Unit Unit okFn boomFn okFn
      ⟨Method.GET, "/".data⟩ ⟨Method.GET, "/".data⟩ none none [] () () ()
      (Error.new "boom".data) rfl rfl,
   c2_error_short_circuits.2.2 Unit Unit [] [] Method.GET (Path.new "/".data)
      (Handler.mk boomFn none)
      ⟨Method.GET, "/".data⟩ () [] (Error.new "boom".data)
      (by simp) (by decide) rfl (by decide) rfl⟩

/-- The concrete application used by claim C3's witness: one `GET /` route
whose single handler succeeds but leaves the response unset. -/
def appC3 : App Unit Unit Unit :=
  ⟨⟨[⟨Method.GET, Path.new "/".data,
      Handler.mk (fun r _ _ _ s => .ok (r, none, s)) none⟩]⟩, none⟩

/-- Claim C3: when the matched route's chain completes successfully with
`response = None`, `Router::dispatch` reports the internal-server-error
condition `Error::StatusCode(500, "")`, and `App::dispatch` turns it into an
HTTP 500 response with an empty body. -/
theorem c3_missing_response_500 :
    ∀ (S T A : Type) [TransientState T] (app : App S T A) (handle : A)
      (pre post : List (Route T A)) (m : Method) (pa : Path) (h : Handler T A)
      (req r' : Request) (params : Params) (st' : T),
      app.router = ⟨pre ++ ⟨m, pa, h⟩ :: post⟩ →
      (∀ rr ∈ pre, ¬(rr.path.matches req.uriPath = true ∧ rr.method = req.method)) →
      pa.matches req.uriPath = true → m = req.method →
      pa.extractE req.uriPath = .ok params →
      h.perform req none params handle TransientState.initial = .ok (r', none, st') →
      app.router.dispatch req handle = .error (Error.statusCode 500 []) ∧
      App.dispatch app handle req = ⟨500, []⟩ := by
  intro S T A _ app handle pre post m pa h req r' params st'
    hrouter hpre hmatch hmethod hext hperf
  have hdisp : app.router.dispatch req handle = .error (Error.statusCode 500 []) := by
    rw [hrouter]
    unfold Router.dispatch
    rw [dispatchLoop_append_of_no_match pre _ req handle hpre,
      dispatchLoop_cons_of_match _ _ _ _ hmatch hmethod]
    simp only [Router.handleRoute, Route.dispatch, hext]
    rw [if_neg (by simp [hmethod])]
    rw [hperf]
  refine ⟨hdisp, ?_⟩
  unfold App.dispatch
  rw [hdisp]

/-- Claim C3 witness: the theorem applied to `appC3`. -/
theorem c3_witness :
    appC3.router.dispatch ⟨Method.GET, "/".data⟩ () = .error (Error.statusCode 500 []) ∧
    App.dispatch appC3 () ⟨Method.GET, "/".data⟩ = ⟨500, []⟩ :=
  c3_missing_response_500 Unit Unit Unit appC3 () [] [] Method.GET (Path.new "/".data)
    (Handler.mk (fun r _ _ _ s => .ok (r, none, s)) none)
    ⟨Method.GET, "/".data⟩ ⟨Method.GET, "/".data⟩ [] ()
    rfl (by simp) (by decide) rfl (by decide) rfl

/-- Claim C4 counterexample: the claim's "p equals q only if their canonical
strings are equal" is false on the code: `PartialEq for Path` treats a `Param`
position as matching anything, so `Path::new("/:x") == Path::new("/foo")`
holds although their canonical strings `"/:x"` and `"/foo"` differ. -/
theorem c4_counterexample :
    Path.eqb (Path.new "/:x".data) (Path.new "/foo".data) = true ∧
    Path.toCanonical (Path.new "/:x".data) ≠ Path.toCanonical (Path.new "/foo".data) := by
  decide

/-- Claim C4 (amended): for compiled paths, equality of canonical strings
implies `PartialEq` equality (but not conversely, by the counterexample); the
`Ord` instance compares exactly the canonical strings, and that comparison is
lexicographic, returning `eq` precisely on equal strings. -/
theorem c4_amended :
    (∀ s t : List Char,
      Path.toCanonical (Path.new s) = Path.toCanonical (Path.new t) →
      Path.eqb (Path.new s) (Path.new t) = true) ∧
    (∀ p q : Path, Path.cmp p q = strCmp p.toCanonical q.toCanonical) ∧
    (∀ a b : List Char, strCmp a b = Ordering.eq ↔ a = b) := by
  refine ⟨?_, fun p q => rfl, strCmp_eq_iff⟩
  intro s t h
  rw [canon_inj_compiled h]
  exact eqb_new_refl t

/-- Claim C4 witness: the first conjunct applied to `"/a"` and `"/a/"`. -/
theorem c4_witness :
    Path.eqb (Path.new "/a".data) (Path.new "/a/".data) = true :=
  c4_amended.1 "/a".data "/a/".data (by decide)

/-- Claim C5 counterexample: the claim requires the duplicate-slash candidate
`"//a/b"` to fail the match against the pattern `"/a/b"`, but `Path::new`
skips the empty segment the duplicate slash produces, so the match succeeds
(as the code's own test asserts). -/
theorem c5_counterexample :
    Path.matches (Path.new "/a/b".data) "//a/b".data = true := by decide

/-- Claim C5 (amended): a compiled path has exactly one `Leader` (its head,
with a leader-free tail), and the equality walk tolerates at most one
`Leader` position in the pattern — a pattern carrying two `Leader`s equals
nothing; however a duplicated slash in the candidate is dropped during the
candidate's compilation, so `"//a/b"` matches the pattern `"/a/b"` instead of
failing. -/
theorem c5_amended :
    (∀ s : List Char, ∃ L, (Path.new s).parts = RoutePart.leader :: L ∧
      RoutePart.leader ∉ L) ∧
    (∀ (xs ys zs : List RoutePart) (q : Path),
      Path.eqb ⟨xs ++ RoutePart.leader :: ys ++ RoutePart.leader :: zs⟩ q = false) ∧
    Path.matches (Path.new "/a/b".data) "//a/b".data = true :=
  ⟨new_exactly_one_leader, eqb_two_leaders, by decide⟩

/-- Claim C6 counterexample: `matches` does not imply that `extract`
succeeds: the candidate `"//a/b"` matches the pattern `"/a/b"` (empty
segments are dropped when the candidate is compiled for matching) yet
`extract` splits the raw candidate, sees four segments against three parts,
and returns the `"invalid parameters"` error. -/
theorem c6_counterexample :
    Path.matches (Path.new "/a/b".data) "//a/b".data = true ∧
    Path.extract (Path.new "/a/b".data) "//a/b".data =
      .value (.error (Error.new "invalid parameters".data)) := by
  decide

/-- Claim C6 (amended): for a well-formed candidate (empty after trimming, or
starting with `'/'` and free of empty segments), a successful match does
imply a successful extraction; and `Path::extract` never panics — its only
slice indexing is guarded by the preceding segment-count check, so every
failure is a returned error value. -/
theorem c6_amended :
    (∀ r s : List Char, Path.matches (Path.new r) s = true → goodCandidate s = true →
      ∃ ps, Path.extract (Path.new r) s = .value (.ok ps)) ∧
    (∀ (p : Path) (s : List Char), Path.extract p s ≠ .indexOutOfBounds) :=
  ⟨fun _ _ hm hg => extract_ok_of_match hm hg, extract_no_oob⟩

/-- Claim C6 witness: both conjuncts at concrete inputs. -/
theorem c6_witness :
    (∃ ps, Path.extract (Path.new "/a/:x".data) "/a/hello".data = .value (.ok ps)) ∧
    Path.extract Path.defaultPath "//".data ≠ .indexOutOfBounds :=
  ⟨c6_amended.1 "/a/:x".data "/a/hello".data (by decide) (by decide),
   c6_amended.2 Path.defaultPath "//".data⟩

/-- Claim C7: `App::dispatch` maps every routing or handler error to a
concrete response and never fails: a status-code error becomes a response
with exactly that status and the error's message as body; an internal error
becomes HTTP 500 with its message as body; a successful dispatch is returned
unchanged. -/
theorem c7_error_to_response :
    ∀ (S T A : Type) [TransientState T] (app : App S T A) (handle : A) (req : Request),
      (∀ sc msg, app.router.dispatch req handle = .error (.statusCode sc msg) →
        App.dispatch app handle req = ⟨sc, msg⟩) ∧
      (∀ msg, app.router.dispatch req handle = .error (.internalServerError msg) →
        App.dispatch app handle req = ⟨500, msg⟩) ∧
      (∀ resp, app.router.dispatch req handle = .ok resp →
        App.dispatch app handle req = resp) := by
  intro S T A _ app handle req
  refine ⟨?_, ?_, ?_⟩
  · intro sc msg h
    unfold App.dispatch
    rw [h]
  · intro msg h
    unfold App.dispatch
    rw [h]
  · intro resp h
    unfold App.dispatch
    rw [h]

/-- Claim C7 witness: the status-code conjunct applied to the empty
application, whose router reports `405` with an empty message. -/
theorem c7_witness :
    App.dispatch (App.new : App Unit Unit Unit) () ⟨Method.GET, "/x".data⟩ = ⟨405, []⟩ :=
  (c7_error_to_response Unit Unit Unit App.new () ⟨Method.GET, "/x".data⟩).1 405 []
    (by decide)

/-- Claim C8: `extract` walks the candidate positionally, binding each
`Param` position's segment to the declared name
(`extract(compile("/a/:x/:y/b"), "/a/1/2/b") = {x: "1", y: "2"}`); a
duplicate parameter name is not deduplicated — the rightmost occurrence wins
(`extract(compile("/a/:x/:x"), "/a/1/2") = {x: "2"}`); a segment-count
mismatch yields the `"invalid parameters"` error and a literal mismatch the
`"invalid path for parameter extraction"` error. -/
theorem c8_extract_bindings :
    Path.extract (Path.new "/a/:x/:y/b".data) "/a/1/2/b".data =
      .value (.ok [("x".data, "1".data), ("y".data, "2".data)]) ∧
    Path.extract (Path.new "/a/:x/:x".data) "/a/1/2".data =
      .value (.ok [("x".data, "2".data)]) ∧
    (∀ (p : Path) (s : List Char),
      ¬(trimEndSlashes s = [] ∧ Path.eqb p Path.defaultPath = true) →
      (splitOnSlash (trimEndSlashes s)).length ≠ p.parts.length →
      Path.extract p s = .value (.error (Error.new "invalid parameters".data))) ∧
    (∀ (p : Path) (s : List Char),
      ¬(trimEndSlashes s = [] ∧ Path.eqb p Path.defaultPath = true) →
      (splitOnSlash (trimEndSlashes s)).length = p.parts.length →
      (∃ j c seg, p.parts.get? j = some (RoutePart.pathComponent c) ∧
        (splitOnSlash (trimEndSlashes s)).get? j = some seg ∧ c ≠ seg) →
      Path.extract p s =
        .value (.error (Error.new "invalid path for parameter extraction".data))) :=
  ⟨by decide, by decide, extract_count_mismatch, extract_literal_mismatch⟩

/-- Claim C8 witness: the two error conjuncts at concrete inputs (including
the spec's own `extract(compile("/a/:x/:y/b"), "/nope")` example). -/
theorem c8_witness :
    Path.extract (Path.new "/a/:x/:y/b".data) "/nope".data =
      .value (.error (Error.new "invalid parameters".data)) ∧
    Path.extract (Path.new "/a/b".data) "/a/c".data =
      .value (.error (Error.new "invalid path for parameter extraction".data)) :=
  ⟨c8_extract_bindings.2.2.1 (Path.new "/a/:x/:y/b".data) "/nope".data
      (by decide) (by decide),
   c8_extract_bindings.2.2.2 (Path.new "/a/b".data) "/a/c".data (by decide) (by decide)
      ⟨2, "b".data, "c".data, by decide, by decide, by decide⟩⟩

/-- Claim C9: for a literal pattern `p` (no parameter segments),
`matches(compile(p), p)` holds, `matches(compile(p), p + "/")` holds (trailing
slashes are trimmed before comparison), and `matches(compile(p), p + "/extra")`
fails (the extra segment changes the part count). -/
theorem c9_literal_trailing_slash (p : List Char) (_hlit : literalPattern p = true) :
    Path.matches (Path.new p) p = true ∧
    Path.matches (Path.new p) (p ++ "/".data) = true ∧
    Path.matches (Path.new p) (p ++ "/extra".data) = false := by
  refine ⟨?_, ?_, ?_⟩
  · show Path.eqb (Path.new p) (Path.new p) = true
    exact eqb_new_refl p
  · show Path.eqb (Path.new p) (Path.new (p ++ "/".data)) = true
    have h1 : p ++ "/".data = p ++ ['/'] := rfl
    rw [h1, new_append_slash]
    exact eqb_new_refl p
  · show Path.eqb (Path.new p) (Path.new (p ++ "/extra".data)) = false
    have hne : (Path.new (p ++ "/extra".data)).parts.length ≠ (Path.new p).parts.length := by
      rw [new_append_extra_parts p]
      by_cases h : '/' ∈ trimEndSlashes p
      · rw [new_parts_of_slash h]
        simp only [List.length_cons, List.length_append, List.length_singleton]
        omega
      · rw [new_parts_of_no_slash h]
        simp only [List.length_cons, List.length_append, List.length_singleton]
        omega
    unfold Path.eqb
    rw [if_pos hne]

/-- Claim C9 witness: the theorem applied to the literal pattern `"/a/b"`. -/
theorem c9_witness :
    literalPattern "/a/b".data = true ∧
    (Path.matches (Path.new "/a/b".data) "/a/b".data = true ∧
      Path.matches (Path.new "/a/b".data) ("/a/b".data ++ "/".data) = true ∧
      Path.matches (Path.new "/a/b".data) ("/a/b".data ++ "/extra".data) = false) :=
  ⟨by decide, c9_literal_trailing_slash "/a/b".data (by decide)⟩

/-- Claim C10: when no registered route passes the path-match-and-method
test — including when no route's path matches at all — `Router::dispatch`
returns `Error::StatusCode(405 METHOD_NOT_ALLOWED, "")`; and the
`404 NOT_FOUND` branch of `Route::dispatch`'s internal method check is dead
code under `Router::dispatch`, which pre-checks the method: dispatch is
extensionally equal to the loop built on the method-check-free
`Route.dispatchSansMethodCheck`. -/
theorem c10_no_route_405_and_dead_404 :
    (∀ (T A : Type) [TransientState T] (routes : List (Route T A)) (req : Request) (app : A),
      (∀ r ∈ routes, ¬(r.path.matches req.uriPath = true ∧ r.method = req.method)) →
      Router.dispatch ⟨routes⟩ req app = .error (Error.statusCode 405 [])) ∧
    (∀ (T A : Type) [TransientState T] (router : Router T A) (req : Request) (app : A),
      Router.dispatch router req app =
        Router.dispatchLoopSansMethodCheck router.routes req app) := by
  constructor
  · intro T A _ routes req app h
    have hres := dispatchLoop_append_of_no_match routes [] req app h
    rw [List.append_nil] at hres
    exact hres
  · intro T A _ router req app
    exact dispatchLoop_eq_sansMethodCheck router.routes req app

/-- Claim C10 witness: the 405 conjunct applied to a router whose only route
path-matches the request but is registered under a different method. -/
theorem c10_witness :
    Router.dispatch
      (⟨[⟨Method.POST, Path.new "/p".data, okHandler⟩]⟩ : Router Unit Unit)
      ⟨Method.GET, "/p".data⟩ () = .error (Error.statusCode 405 []) :=
  c10_no_route_405_and_dead_404.1 Unit Unit
    [⟨Method.POST, Path.new "/p".data, okHandler⟩]
    ⟨Method.GET, "/p".data⟩ ()
    (by
      intro r hr
      rw [List.mem_singleton] at hr
      subst hr
      intro hand
      exact absurd hand.2 (by decide))

